import Mathlib

/-!
Verification of the parserlib parser-combinator engine.

This file embeds the parser expressions found under src (TerminalParser and
SequenceParser together with their composition operators), the file-loading
utility, and the GROW phase of the left-recursion resolver described by the
design document, and proves the specification claims about them.
-/

namespace Parserlib

/-- Modelled from the spec: the phase field of an LR Frame (SEED or GROW,
section 4.5 of the design document); the Rule header of the repository is
not under src. -/
inductive LRPhase : Type where
  | seed : LRPhase
  | grow : LRPhase
deriving DecidableEq

/-- Modelled from the spec: a left-recursion frame (section 4.5): owning rule
identity, start position, phase, best end position, and a re-entry flag; the
Rule header of the repository is not under src. -/
structure LRFrame : Type where
  ruleId : Nat
  startPos : Nat
  phase : LRPhase
  bestEnd : Nat
  reentered : Bool
deriving DecidableEq

/-- Modelled from the spec: a Match record (section 3) with a host-chosen id,
begin and end source positions, and ordered children; the Match header of
the repository is not under src. -/
inductive MatchNode (I : Type) : Type where
  | node : I → Nat → Nat → List (MatchNode I) → MatchNode I

/-- Modelled from the spec: the Parse Context state (section 3): the input
source, the current source position, the committed matches and the
left-recursion stack; the ParseContext header of the repository is not under
src. The source position is an index into the input list and the end
position is the input length. -/
structure ParseContext (E I : Type) : Type where
  input : List E
  sourcePos : Nat
  matchList : List (MatchNode I)
  lrStack : List LRFrame

variable {E I : Type}

/-- Modelled from the spec: the end position of the source. -/
def ParseContext.sourceEndPosition (pc : ParseContext E I) : Nat :=
  pc.input.length

/-- Modelled from the spec: advancing the source position by one element. -/
def ParseContext.incrementSourcePosition (pc : ParseContext E I) : ParseContext E I :=
  { pc with sourcePos := pc.sourcePos + 1 }

/-- Modelled from the spec: the snapshot of position and number of matches
that SequenceParser saves before parsing its children (section 3,
Snapshot). -/
def ParseContext.state (pc : ParseContext E I) : Nat × Nat :=
  (pc.sourcePos, pc.matchList.length)

/-- Modelled from the spec: restoring a snapshot resets the position and
truncates the match list to the recorded length (section 3, Snapshot). -/
def ParseContext.setState (pc : ParseContext E I) (s : Nat × Nat) : ParseContext E I :=
  { pc with sourcePos := s.1, matchList := pc.matchList.take s.2 }

/-- Deep embedding of the parser expressions present under src: a terminal
parser holding a terminal value (TerminalParser.hpp) and a sequence parser
over a tuple of children (SequenceParser.hpp, unnamed part 001). -/
inductive Parser (E : Type) : Type where
  | terminal : E → Parser E
  | sequence : List (Parser E) → Parser E

mutual

/-- Embedding of TerminalParser::operator() (TerminalParser.hpp lines 40-48)
and SequenceParser::operator() (SequenceParser.hpp lines 41-54). A terminal
compares the current element against the terminal value and advances the
source position by one on equality; a sequence saves the state, parses the
children and restores the saved state on failure. The iterator comparison
of sourcePosition against sourceEndPosition in the source is rendered as
the bounds check sourcePos < input.length, which agrees with it at every
position reachable from the start of the input. -/
def parse [DecidableEq E] : Parser E → ParseContext E I → Bool × ParseContext E I
  | .terminal v, pc =>
    if h : pc.sourcePos < pc.input.length then
      if pc.input.get ⟨pc.sourcePos, h⟩ = v then
        (true, pc.incrementSourcePosition)
      else
        (false, pc)
    else
      (false, pc)
  | .sequence cs, pc =>
    match parseList cs pc with
    | (true, pc2) => (true, pc2)
    | (false, pc2) => (false, pc2.setState pc.state)

/-- Embedding of the private helper SequenceParser::parse of index Index
(SequenceParser.hpp lines 59-69): the children are invoked one by one, the
first failure stops the iteration, and an exhausted child list returns
true. -/
def parseList [DecidableEq E] : List (Parser E) → ParseContext E I → Bool × ParseContext E I
  | [], pc => (true, pc)
  | c :: cs, pc =>
    match parse c pc with
    | (true, pc2) => parseList cs pc2
    | (false, pc2) => (false, pc2)

end

/-- Embedding of TerminalParser::parseLeftRecursionTerminal
(TerminalParser.hpp lines 55-57): it forwards to operator(). -/
def parseLeftRecursionTerminal [DecidableEq E] (v : E) (pc : ParseContext E I) :
    Bool × ParseContext E I :=
  parse (Parser.terminal v) pc

/-- Embedding of TerminalParser::parseLeftRecursionContinuation
(TerminalParser.hpp lines 64-66): it returns false and leaves the context
untouched. -/
def parseLeftRecursionContinuation (_v : E) (pc : ParseContext E I) :
    Bool × ParseContext E I :=
  (false, pc)

/-- Children contributed by a parser when it becomes a member of a sequence
built by the composition operators of SequenceParser.hpp: a sequence
contributes its child list, any other parser contributes itself. -/
def seqChildren : Parser E → List (Parser E)
  | .sequence cs => cs
  | p => [p]

/-- Embedding of the four composition operator overloads of
SequenceParser.hpp (lines 79-136) that build a sequence out of two parsers:
two sequences concatenate their child tuples, a sequence absorbs a
non-sequence child on either side, and two non-sequences form a fresh
two-child sequence. Overload resolution picks the most specific variant,
mirrored here by the order of the cases. -/
def seqCombine : Parser E → Parser E → Parser E
  | .sequence cs1, .sequence cs2 => .sequence (cs1 ++ cs2)
  | .sequence cs1, p2 => .sequence (cs1 ++ [p2])
  | p1, .sequence cs2 => .sequence (p1 :: cs2)
  | p1, p2 => .sequence [p1, p2]

/-- Embedding of the character overload of the composition operator with the
parser on the left (SequenceParser.hpp lines 145-148): it forwards to the
composition with a TerminalParser built from the character. -/
def seqNodeChar (a : Parser Char) (ch : Char) : Parser Char :=
  seqCombine a (Parser.terminal ch)

/-- Embedding of the character overload of the composition operator with the
character on the left (SequenceParser.hpp lines 241-244): it forwards to the
composition with a TerminalParser built from the character. -/
def seqCharNode (ch : Char) (a : Parser Char) : Parser Char :=
  seqCombine (Parser.terminal ch) a

/-- Embedding of loadASCIIFile (util.hpp lines 19-27) applied to the
readable contents of the file: the buffer receives the whole stream, then
optionally the zero character, and the accumulated string is returned. -/
def loadASCIIFile (contents : List Char) (appendZero : Bool) : List Char :=
  let buffer := contents
  if appendZero then buffer ++ [Char.ofNat 0] else buffer

/-- Modelled from the spec: the iteration of the GROW phase of the
left-recursion resolver (section 4.5); the Rule header of the repository is
not under src. The evaluation of the rule body at the current best end is
abstracted as a function on the positions of an input of length n (a
position is at most n), and the loop re-evaluates the body as long as the
new end position strictly exceeds the best end. -/
def growLoop (n : Nat) (body : Fin (n + 1) → Fin (n + 1)) (best : Fin (n + 1)) :
    Fin (n + 1) :=
  if h : best < body best then growLoop n body (body best) else best
termination_by n + 1 - best.val
decreasing_by
  have hb := (body best).isLt
  have hv := Fin.lt_def.mp h
  omega

/-- Modelled from the spec: the number of GROW iterations of growLoop that
strictly increase the best end before the loop stops (section 4.5). -/
def growSteps (n : Nat) (body : Fin (n + 1) → Fin (n + 1)) (best : Fin (n + 1)) : Nat :=
  if h : best < body best then growSteps n body (body best) + 1 else 0
termination_by n + 1 - best.val
decreasing_by
  have hb := (body best).isLt
  have hv := Fin.lt_def.mp h
  omega

/-- Two parse contexts with the same four fields are equal. -/
theorem ParseContext.eq_of_fields {pc1 pc2 : ParseContext E I}
    (h1 : pc1.input = pc2.input) (h2 : pc1.sourcePos = pc2.sourcePos)
    (h3 : pc1.matchList = pc2.matchList) (h4 : pc1.lrStack = pc2.lrStack) :
    pc1 = pc2 := by
  cases pc1
  cases pc2
  simp_all

/-- Restoring the snapshot of pc from a context that differs from pc only in
its source position yields pc itself. -/
theorem setState_restore {pc pc2 : ParseContext E I}
    (h1 : pc2.input = pc.input) (h2 : pc2.matchList = pc.matchList)
    (h3 : pc2.lrStack = pc.lrStack) : pc2.setState pc.state = pc := by
  apply ParseContext.eq_of_fields
  · exact h1
  · rfl
  · show pc2.matchList.take pc.matchList.length = pc.matchList
    rw [h2, List.take_length]
  · exact h3

mutual

/-- Parsing never changes the input, the match list, or the left-recursion
stack: the expressions under src record no matches and create no LR
frames. -/
theorem parse_preserves [DecidableEq E] (p : Parser E) (pc : ParseContext E I) :
    (parse p pc).2.input = pc.input ∧ (parse p pc).2.matchList = pc.matchList ∧
      (parse p pc).2.lrStack = pc.lrStack := by
  cases p with
  | terminal v =>
    simp only [parse]
    split
    · split
      · exact ⟨rfl, rfl, rfl⟩
      · exact ⟨rfl, rfl, rfl⟩
    · exact ⟨rfl, rfl, rfl⟩
  | sequence cs =>
    have h := parseList_preserves cs pc
    simp only [parse]
    rcases hr : parseList cs pc with ⟨flag, pc2⟩
    rw [hr] at h
    cases flag
    · refine ⟨h.1, ?_, h.2.2⟩
      show pc2.matchList.take pc.matchList.length = pc.matchList
      rw [h.2.1, List.take_length]
    · exact h

/-- The child iteration never changes the input, the match list, or the
left-recursion stack. -/
theorem parseList_preserves [DecidableEq E] (l : List (Parser E)) (pc : ParseContext E I) :
    (parseList l pc).2.input = pc.input ∧ (parseList l pc).2.matchList = pc.matchList ∧
      (parseList l pc).2.lrStack = pc.lrStack := by
  cases l with
  | nil => exact ⟨rfl, rfl, rfl⟩
  | cons c cs =>
    have h1 := parse_preserves c pc
    simp only [parseList]
    rcases hp : parse c pc with ⟨flag, pc2⟩
    rw [hp] at h1
    cases flag
    · exact h1
    · have h2 := parseList_preserves cs pc2
      exact ⟨h2.1.trans h1.1, h2.2.1.trans h1.2.1, h2.2.2.trans h1.2.2⟩

end

/-- Normal form of a sequence parse: on child-iteration success the iteration
result is returned, otherwise the original context is recovered by the
snapshot restore. -/
theorem parse_sequence_eq [DecidableEq E] (cs : List (Parser E)) (pc : ParseContext E I) :
    parse (Parser.sequence cs) pc =
      if (parseList cs pc).1 = true then (true, (parseList cs pc).2) else (false, pc) := by
  have hpre := parseList_preserves cs pc
  rcases hr : parseList cs pc with ⟨flag, pc2⟩
  rw [hr] at hpre
  cases flag
  · simp only [parse, hr]
    simp only [Bool.false_eq_true, if_false]
    exact Prod.ext rfl (setState_restore hpre.1 hpre.2.1 hpre.2.2)
  · simp [parse, hr]

/-- Failure of any parse leaves the context exactly as it was. -/
theorem parse_false_state [DecidableEq E] (p : Parser E) (pc : ParseContext E I)
    (h : (parse p pc).1 = false) : (parse p pc).2 = pc := by
  cases p with
  | terminal v =>
    by_cases hlt : pc.sourcePos < pc.input.length
    · simp only [parse, dif_pos hlt] at h ⊢
      split at h
      · exact absurd h (by simp)
      · rename_i hne
        rw [if_neg hne]
    · simp only [parse, dif_neg hlt]
  | sequence cs =>
    rw [parse_sequence_eq] at h ⊢
    rcases hf : (parseList cs pc).1 with _ | _
    · simp [hf]
    · rw [hf] at h
      simp at h

/-- Appending two child lists runs the first list and, if it succeeds,
continues with the second list on the resulting context; a failure of the
first list is the failure of the whole iteration. -/
theorem parseList_append [DecidableEq E] (l1 l2 : List (Parser E)) (pc : ParseContext E I) :
    ((parseList l1 pc).1 = true →
      parseList (l1 ++ l2) pc = parseList l2 (parseList l1 pc).2) ∧
    ((parseList l1 pc).1 = false → parseList (l1 ++ l2) pc = parseList l1 pc) := by
  induction l1 generalizing pc with
  | nil =>
    constructor
    · intro _
      rfl
    · intro h
      simp [parseList] at h
  | cons c cs ih =>
    rcases hp : parse c pc with ⟨flag, pc2⟩
    cases flag
    · constructor
      · intro h
        simp [parseList, hp] at h
      · intro _
        simp only [List.cons_append, parseList, hp]
    · constructor
      · intro h
        simp only [parseList, hp] at h
        simp only [List.cons_append, parseList, hp]
        exact (ih pc2).1 h
      · intro h
        simp only [parseList, hp] at h
        simp only [List.cons_append, parseList, hp]
        exact (ih pc2).2 h

/-- Success of every child in declaration order, each invoked on the context
produced by its predecessor: the reading of the sequence contract in the
specification, stated independently of the snapshot-restore mechanics. -/
def childrenSucceed [DecidableEq E] : List (Parser E) → ParseContext E I → Bool
  | [], _ => true
  | c :: cs, pc => (parse c pc).1 && childrenSucceed cs (parse c pc).2

/-- The flag of the child iteration agrees with childrenSucceed. -/
theorem parseList_flag [DecidableEq E] (l : List (Parser E)) (pc : ParseContext E I) :
    (parseList l pc).1 = childrenSucceed l pc := by
  induction l generalizing pc with
  | nil => rfl
  | cons c cs ih =>
    rcases hp : parse c pc with ⟨flag, pc2⟩
    cases flag
    · simp [parseList, childrenSucceed, hp]
    · simp [parseList, childrenSucceed, hp, ih]

/-- The composition operator always builds the sequence over the flattened
children of its two operands. -/
theorem seqCombine_eq (a b : Parser E) :
    seqCombine a b = Parser.sequence (seqChildren a ++ seqChildren b) := by
  cases a <;> cases b <;> simp [seqCombine, seqChildren]

/-- Replacing a sequence member by its flattened children preserves the flag
of the child iteration, and on success the whole iteration result. -/
theorem parseList_seqChildren [DecidableEq E] (a : Parser E) (rest : List (Parser E))
    (pc : ParseContext E I) :
    (parseList (seqChildren a ++ rest) pc).1 = (parseList (a :: rest) pc).1 ∧
      ((parseList (a :: rest) pc).1 = true →
        parseList (seqChildren a ++ rest) pc = parseList (a :: rest) pc) := by
  cases a with
  | terminal v => simp [seqChildren]
  | sequence cs =>
    have happ := parseList_append cs rest pc
    have hseq := parse_sequence_eq cs pc
    rcases hr : parseList cs pc with ⟨flag, pc2⟩
    rw [hr] at happ hseq
    cases flag
    · simp at hseq
      have hL : parseList (cs ++ rest) pc = (false, pc2) := happ.2 rfl
      have hR : parseList (Parser.sequence cs :: rest) pc = (false, pc) := by
        simp only [parseList, hseq]
      constructor
      · show (parseList (cs ++ rest) pc).1 = (parseList (Parser.sequence cs :: rest) pc).1
        rw [hL, hR]
      · intro h
        rw [hR] at h
        simp at h
    · simp at hseq
      have hL : parseList (cs ++ rest) pc = parseList rest pc2 := happ.1 rfl
      have hR : parseList (Parser.sequence cs :: rest) pc = parseList rest pc2 := by
        simp only [parseList, hseq]
      constructor
      · show (parseList (cs ++ rest) pc).1 = (parseList (Parser.sequence cs :: rest) pc).1
        rw [hL, hR]
      · intro _
        show parseList (cs ++ rest) pc = parseList (Parser.sequence cs :: rest) pc
        rw [hL, hR]

/-- The parser built by the composition operator parses every context exactly
as the plain two-child sequence of its operands. -/
theorem parse_seqCombine [DecidableEq E] (a b : Parser E) (pc : ParseContext E I) :
    parse (seqCombine a b) pc = parse (Parser.sequence [a, b]) pc := by
  rw [seqCombine_eq, parse_sequence_eq (seqChildren a ++ seqChildren b) pc,
    parse_sequence_eq [a, b] pc]
  have h1 := parseList_seqChildren a (seqChildren b) pc
  have h2 : (parseList (a :: seqChildren b) pc).1 = (parseList [a, b] pc).1 ∧
      ((parseList [a, b] pc).1 = true →
        parseList (a :: seqChildren b) pc = parseList [a, b] pc) := by
    rcases hp : parse a pc with ⟨flag, pc2⟩
    cases flag
    · constructor
      · simp [parseList, hp]
      · intro h
        simp [parseList, hp] at h
    · have h3 := parseList_seqChildren b ([] : List (Parser E)) pc2
      rw [List.append_nil] at h3
      constructor
      · simp only [parseList, hp]
        exact h3.1
      · intro h
        simp only [parseList, hp] at h ⊢
        exact h3.2 h
  rcases hflag : (parseList [a, b] pc).1 with _ | _
  · have hf : (parseList (seqChildren a ++ seqChildren b) pc).1 = false := by
      rw [h1.1, h2.1, hflag]
    simp [hf, hflag]
  · have ha := h2.2 hflag
    have hb : (parseList (a :: seqChildren b) pc).1 = true := by
      rw [h2.1, hflag]
    have hc := h1.2 hb
    simp [hc, ha, hflag]

/-- The GROW loop never decreases the best end position. -/
theorem growLoop_ge (n : Nat) (body : Fin (n + 1) → Fin (n + 1)) (best : Fin (n + 1)) :
    best ≤ growLoop n body best := by
  rw [growLoop]
  split
  · rename_i h
    exact le_of_lt (lt_of_lt_of_le h (growLoop_ge n body (body best)))
  · exact le_refl best
termination_by n + 1 - best.val
decreasing_by
  rename_i h
  have hb := (body best).isLt
  have hv := Fin.lt_def.mp h
  omega

/-- The number of strictly increasing GROW iterations is at most the distance
from the starting best end to the input length. -/
theorem growSteps_le (n : Nat) (body : Fin (n + 1) → Fin (n + 1)) (best : Fin (n + 1)) :
    growSteps n body best ≤ n - best.val := by
  rw [growSteps]
  split
  · rename_i h
    have ih := growSteps_le n body (body best)
    have hb := (body best).isLt
    have hv := Fin.lt_def.mp h
    omega
  · omega
termination_by n + 1 - best.val
decreasing_by
  rename_i h
  have hb := (body best).isLt
  have hv := Fin.lt_def.mp h
  omega

/-- C1: rollback purity on failure: for every parser expression (in
particular a terminal and a sequence) and every parse context, if parse
returns false then the source position and the length of the match list are
exactly as before the call. -/
theorem claim_rollback_purity [DecidableEq E] (p : Parser E) (pc : ParseContext E I)
    (h : (parse p pc).1 = false) :
    (parse p pc).2.sourcePos = pc.sourcePos ∧
      (parse p pc).2.matchList.length = pc.matchList.length := by
  rw [parse_false_state p pc h]
  exact ⟨rfl, rfl⟩

/-- Witness for the rollback-purity theorem at a concrete failing terminal
parse. -/
theorem claim_rollback_purity_witness :
    (parse (Parser.terminal 'a') (⟨['b'], 0, [], []⟩ : ParseContext Char Nat)).1 = false ∧
      ((parse (Parser.terminal 'a') (⟨['b'], 0, [], []⟩ : ParseContext Char Nat)).2.sourcePos = 0 ∧
        (parse (Parser.terminal 'a')
            (⟨['b'], 0, [], []⟩ : ParseContext Char Nat)).2.matchList.length = 0) :=
  ⟨rfl, claim_rollback_purity (Parser.terminal 'a') ⟨['b'], 0, [], []⟩ rfl⟩

/-- C2: a sequence parses successfully exactly when every child parses
successfully in declaration order, each on the context state left by its
predecessor; after the first failing child no later child is invoked (the
iteration returns at once with the failing result), and on failure the saved
initial state is restored. -/
theorem claim_sequence_contract [DecidableEq E] (cs : List (Parser E)) (c : Parser E)
    (rest : List (Parser E)) (pc : ParseContext E I) :
    ((parse (Parser.sequence cs) pc).1 = childrenSucceed cs pc) ∧
      ((parse (Parser.sequence cs) pc).1 = false → (parse (Parser.sequence cs) pc).2 = pc) ∧
      ((parse c pc).1 = false → parseList (c :: rest) pc = (false, (parse c pc).2)) := by
  refine ⟨?_, parse_false_state _ pc, ?_⟩
  · rw [parse_sequence_eq, ← parseList_flag]
    rcases hf : (parseList cs pc).1 with _ | _ <;> simp [hf]
  · intro h
    rcases hp : parse c pc with ⟨flag, pc2⟩
    rw [hp] at h
    simp at h
    subst h
    simp [parseList, hp]

/-- Witness for the sequence-contract theorem: a failing first child stops
the iteration, and the failing sequence restores its context. -/
theorem claim_sequence_contract_witness :
    (parse (Parser.sequence [Parser.terminal 'a'])
        (⟨['b'], 0, [], []⟩ : ParseContext Char Nat)).1 = false ∧
      (parse (Parser.sequence [Parser.terminal 'a'])
          (⟨['b'], 0, [], []⟩ : ParseContext Char Nat)).2 = ⟨['b'], 0, [], []⟩ ∧
      (parse (Parser.terminal 'a') (⟨['b'], 0, [], []⟩ : ParseContext Char Nat)).1 = false ∧
      parseList [Parser.terminal 'a', Parser.terminal 'x']
          (⟨['b'], 0, [], []⟩ : ParseContext Char Nat) =
        (false, (parse (Parser.terminal 'a') (⟨['b'], 0, [], []⟩ : ParseContext Char Nat)).2) :=
  ⟨rfl,
    (claim_sequence_contract [Parser.terminal 'a'] (Parser.terminal 'a') [Parser.terminal 'x']
        ⟨['b'], 0, [], []⟩).2.1 rfl,
    rfl,
    (claim_sequence_contract [Parser.terminal 'a'] (Parser.terminal 'a') [Parser.terminal 'x']
        ⟨['b'], 0, [], []⟩).2.2 rfl⟩

/-- C3: a terminal parser succeeds exactly when the context is not at end of
input and the element at the current position equals the terminal value; on
success the source position advances by exactly one element, and on failure
it returns false with the context unchanged. -/
theorem claim_terminal_contract [DecidableEq E] (v : E) (pc : ParseContext E I) :
    ((parse (Parser.terminal v) pc).1 = true ↔
      pc.sourcePos < pc.input.length ∧ pc.input.get? pc.sourcePos = some v) ∧
      ((parse (Parser.terminal v) pc).1 = true →
        (parse (Parser.terminal v) pc).2.sourcePos = pc.sourcePos + 1) ∧
      ((parse (Parser.terminal v) pc).1 = false → (parse (Parser.terminal v) pc).2 = pc) := by
  refine ⟨?_, ?_, parse_false_state _ pc⟩
  · by_cases hlt : pc.sourcePos < pc.input.length
    · simp only [parse, dif_pos hlt]
      split
      · rename_i heq
        simp [hlt, List.get?_eq_get hlt]
        exact heq
      · rename_i hne
        constructor
        · intro h
          simp at h
        · rintro ⟨-, hgot⟩
          rw [List.get?_eq_get hlt] at hgot
          exact absurd (Option.some.inj hgot) hne
    · simp only [parse, dif_neg hlt]
      constructor
      · intro h
        simp at h
      · rintro ⟨hlt2, -⟩
        exact absurd hlt2 hlt
  · intro h
    by_cases hlt : pc.sourcePos < pc.input.length
    · simp only [parse, dif_pos hlt] at h ⊢
      split at h
      · rename_i heq
        rw [if_pos heq]
        rfl
      · simp at h
    · rw [parse, dif_neg hlt] at h
      simp at h

/-- Witness for the terminal-contract theorem at a concrete successful
terminal parse. -/
theorem claim_terminal_contract_witness :
    (parse (Parser.terminal 'a') (⟨['a'], 0, [], []⟩ : ParseContext Char Nat)).1 = true ∧
      (parse (Parser.terminal 'a') (⟨['a'], 0, [], []⟩ : ParseContext Char Nat)).2.sourcePos = 1 :=
  ⟨rfl, (claim_terminal_contract 'a' ⟨['a'], 0, [], []⟩).2.1 rfl⟩

/-- C4: nested sequences flatten: both associations of the composition of
three parsers build the same single flat sequence parser over the combined
flattened children (for non-sequence operands these are exactly the three
parsers themselves), and the two built parsers therefore parse every context
identically. -/
theorem claim_sequence_flattening [DecidableEq E] (a b c : Parser E) :
    seqCombine (seqCombine a b) c =
        Parser.sequence (seqChildren a ++ seqChildren b ++ seqChildren c) ∧
      seqCombine a (seqCombine b c) =
        Parser.sequence (seqChildren a ++ seqChildren b ++ seqChildren c) ∧
      seqCombine (seqCombine a b) c = seqCombine a (seqCombine b c) ∧
      ∀ pc : ParseContext E I,
        parse (seqCombine (seqCombine a b) c) pc = parse (seqCombine a (seqCombine b c)) pc := by
  have hab := seqCombine_eq a b
  have hbc := seqCombine_eq b c
  have h1 : seqCombine (seqCombine a b) c =
      Parser.sequence (seqChildren a ++ seqChildren b ++ seqChildren c) := by
    rw [seqCombine_eq (seqCombine a b) c, hab]
    rw [show seqChildren (Parser.sequence (seqChildren a ++ seqChildren b)) =
      seqChildren a ++ seqChildren b from rfl]
  have h2 : seqCombine a (seqCombine b c) =
      Parser.sequence (seqChildren a ++ seqChildren b ++ seqChildren c) := by
    rw [seqCombine_eq a (seqCombine b c), hbc]
    rw [show seqChildren (Parser.sequence (seqChildren b ++ seqChildren c)) =
      seqChildren b ++ seqChildren c from rfl, List.append_assoc]
  exact ⟨h1, h2, h1.trans h2.symm, fun pc => by rw [h1.trans h2.symm]⟩

/-- C5: the GROW phase of the left-recursion resolver terminates: the best
end never decreases, each iteration that continues strictly increases the
best end, which is bounded by the input length, iteration stops the first
time the best end does not strictly increase, and the number of increasing
iterations is at most the distance from the initial best end to the input
length. -/
theorem claim_grow_termination (n : Nat) (body : Fin (n + 1) → Fin (n + 1))
    (best : Fin (n + 1)) :
    best ≤ growLoop n body best ∧
      growSteps n body best ≤ n - best.val ∧
      (body best).val ≤ n ∧
      (best < body best → growLoop n body best = growLoop n body (body best)) ∧
      (¬best < body best → growLoop n body best = best) := by
  refine ⟨growLoop_ge n body best, growSteps_le n body best,
    Nat.lt_succ_iff.mp (body best).isLt, ?_, ?_⟩
  · intro h
    conv_lhs => rw [growLoop]
    rw [dif_pos h]
  · intro h
    conv_lhs => rw [growLoop]
    rw [dif_neg h]

/-- Witness for the GROW-termination theorem at two concrete loop bodies,
one that continues and one that stops at once. -/
theorem claim_grow_termination_witness :
    ((0 : Fin 2) < (fun _ => (1 : Fin 2)) (0 : Fin 2)) ∧
      growLoop 1 (fun _ => (1 : Fin 2)) 0 = growLoop 1 (fun _ => (1 : Fin 2)) 1 ∧
      ¬((0 : Fin 2) < (fun _ => (0 : Fin 2)) (0 : Fin 2)) ∧
      growLoop 1 (fun _ => (0 : Fin 2)) 0 = 0 :=
  ⟨by decide,
    (claim_grow_termination 1 (fun _ => (1 : Fin 2)) 0).2.2.2.1 (by decide),
    by decide,
    (claim_grow_termination 1 (fun _ => (0 : Fin 2)) 0).2.2.2.2 (by decide)⟩

/-- C6: terminal parsers do not participate in left-recursion resolution:
parseLeftRecursionTerminal produces exactly the result and context state of
operator(), parseLeftRecursionContinuation always returns false without
modifying the context, and a terminal parse never modifies the
left-recursion stack, so a terminal never creates an LR frame. -/
theorem claim_terminal_no_left_recursion [DecidableEq E] (v : E) (pc : ParseContext E I) :
    parseLeftRecursionTerminal v pc = parse (Parser.terminal v) pc ∧
      parseLeftRecursionContinuation v pc = (false, pc) ∧
      (parseLeftRecursionTerminal v pc).2.lrStack = pc.lrStack ∧
      (parse (Parser.terminal v) pc).2.lrStack = pc.lrStack :=
  ⟨rfl, rfl, (parse_preserves (Parser.terminal v) pc).2.2,
    (parse_preserves (Parser.terminal v) pc).2.2⟩

/-- C7: the character sugar for sequences matches explicit composition: for
every parser node and every character, composing with the character on the
right parses every context identically to the sequence of the parser and the
character terminal, and symmetrically with the character on the left. -/
theorem claim_char_sugar (a : Parser Char) (ch : Char) (pc : ParseContext Char I) :
    parse (seqNodeChar a ch) pc = parse (Parser.sequence [a, Parser.terminal ch]) pc ∧
      parse (seqCharNode ch a) pc = parse (Parser.sequence [Parser.terminal ch, a]) pc :=
  ⟨parse_seqCombine a (Parser.terminal ch) pc, parse_seqCombine (Parser.terminal ch) a pc⟩

/-- C8: at end of input a terminal parser returns false without reading an
element and without modifying the parse context: the end-of-position check
precedes the element access, so when the position equals the end position no
element is accessed and the parse fails with the context unchanged. -/
theorem claim_terminal_end_of_input [DecidableEq E] (v : E) (pc : ParseContext E I)
    (h : pc.sourcePos = pc.input.length) :
    parse (Parser.terminal v) pc = (false, pc) := by
  have hlt : ¬pc.sourcePos < pc.input.length := by omega
  simp [parse, dif_neg hlt]

/-- Witness for the end-of-input theorem on the empty input. -/
theorem claim_terminal_end_of_input_witness :
    (⟨[], 0, [], []⟩ : ParseContext Char Nat).sourcePos =
        (⟨[], 0, [], []⟩ : ParseContext Char Nat).input.length ∧
      parse (Parser.terminal 'a') (⟨[], 0, [], []⟩ : ParseContext Char Nat) =
        (false, ⟨[], 0, [], []⟩) :=
  ⟨rfl, claim_terminal_end_of_input 'a' ⟨[], 0, [], []⟩ rfl⟩

/-- C9: a sequence parser with zero children always succeeds and leaves the
context completely unchanged, and the recursive child helper returns true in
its base case without touching the context. -/
theorem claim_empty_sequence [DecidableEq E] (pc : ParseContext E I) :
    parse (Parser.sequence ([] : List (Parser E))) pc = (true, pc) ∧
      parseList ([] : List (Parser E)) pc = (true, pc) :=
  ⟨rfl, rfl⟩

/-- C10: loadASCIIFile returns exactly the readable contents when appendZero
is false (the default), returns the contents with exactly one zero character
appended when appendZero is true, and the two results differ only in that
trailing zero character. -/
theorem claim_loadASCIIFile (s : List Char) :
    loadASCIIFile s false = s ∧ loadASCIIFile s true = s ++ [Char.ofNat 0] ∧
      loadASCIIFile s true = loadASCIIFile s false ++ [Char.ofNat 0] :=
  ⟨rfl, rfl, rfl⟩

end Parserlib
